import Mathlib

/-
  Verification of the procedural, persistent cache-grid core of
  tblagarrett/cmpm-121-demo-3 (src/main.ts), as a shallow embedding.

  Modelling conventions:
  * JavaScript numbers are modelled as exact rationals (ℚ); the numeric
    literal 1e-4 is the rational 1/10000, written with mkRat so that all
    arithmetic reduces inside the kernel.
  * JavaScript Map objects are modelled as insertion-ordered association
    lists (mapGet / mapSet / mapHas below), matching Map.get / Map.set /
    Map.has semantics (set overwrites in place, lookup returns the entry
    for the first matching key; keys are unique by construction).
  * Template-literal keys like `i,j` are modelled by cellKey, built from
    an explicit decimal renderer (intStr / natStr) that mirrors how
    JavaScript stringifies integer-valued numbers.  Injectivity of this
    encoding is proved below and is load-bearing for the directory and
    flyweight registry claims.
  * The deterministic generator luck (imported from ./luck.ts, which is
    not part of the sources given) is modelled from the spec as an
    arbitrary pure function from key strings to ℚ; see the doc comment
    on LuckFn.
  * Rendering state (leaflet rectangles, popups, markers, polyline) is
    out of scope; a live cache layer is modelled by the Cache value the
    source stores on the rectangle, and the rectangle registry
    existingRectangles by its key set.
-/

/-- Decimal digit character: JavaScript renders digit d as the character
with code 48 + d. -/
def digitCh (d : Nat) : Char := Char.ofNat (48 + d)

/-- Fuel-based digit accumulator producing the decimal digits of n (most
significant first) in front of ds; structural in the fuel so that the
kernel can evaluate it. -/
def digsCore : Nat → Nat → List Char → List Char
  | 0, _, ds => ds
  | fuel+1, n, ds =>
    let d := digitCh (n % 10)
    if n / 10 = 0 then d :: ds else digsCore fuel (n / 10) (d :: ds)

/-- Canonical decimal digit list of a natural number, most significant
digit first; recursion-theoretic reference version of digsCore used in
proofs. -/
def natDigs (n : Nat) : List Char :=
  if _h : n < 10 then [digitCh n]
  else natDigs (n / 10) ++ [digitCh (n % 10)]
decreasing_by simp_wf; omega

/-- Decimal rendering of a natural number, as JavaScript string
interpolation produces it. -/
def natStr (n : Nat) : String := (digsCore (n + 1) n []).asString

/-- Decimal rendering of an integer, as JavaScript string interpolation
produces it for integer-valued numbers. -/
def intStr : Int → String
  | Int.ofNat m => natStr m
  | Int.negSucc m => "-" ++ natStr (m + 1)

/-- Key string for a grid cell, mirroring the template literal
used for CellFactory.cellCache, existingRectangles and cacheMementos
keys, and also the array stringification used as the luck key for the
spawn decision (both produce the same text, the two coordinates joined
by a comma). -/
def cellKey (i j : Int) : String := intStr i ++ "," ++ intStr j

/-- Lookup in an association-list model of a JavaScript Map
(Map.prototype.get). -/
def mapGet {α : Type} : List (String × α) → String → Option α
  | [], _ => none
  | (k', v) :: rest, k => if k' = k then some v else mapGet rest k

/-- Insertion in an association-list model of a JavaScript Map
(Map.prototype.set): overwrites in place if the key is present,
otherwise appends. -/
def mapSet {α : Type} : List (String × α) → String → α → List (String × α)
  | [], k, v => [(k, v)]
  | (k', v') :: rest, k, v =>
    if k' = k then (k, v) :: rest else (k', v') :: mapSet rest k v

/-- Membership test in an association-list model of a JavaScript Map
(Map.prototype.has). -/
def mapHas {α : Type} (m : List (String × α)) (k : String) : Bool :=
  (mapGet m k).isSome

/-- Key-set model of the existingRectangles Map (only has / set / clear
are ever used on it, and the stored rectangle values are rendering
handles, so only the key set is carried). -/
def keySet (ks : List String) (k : String) : List String :=
  if k ∈ ks then ks else ks ++ [k]

/-- Grid cell identity, the Cell interface of the source: an integer
pair (i, j). -/
structure Cell where
  i : Int
  j : Int
deriving DecidableEq, Repr

/-- Collectible token, the Coin interface of the source: the cell where
it was minted plus a serial number unique within that cell.  The
toString method of the source is the derived function Coin.display. -/
structure Coin where
  cell : Cell
  serial : Nat
deriving DecidableEq, Repr

/-- Display form of a coin, mirroring the toString method of the Coin
literal in the source. -/
def Coin.display (c : Coin) : String :=
  intStr c.cell.i ++ ":" ++ intStr c.cell.j ++ "#" ++ natStr c.serial

/-- Tile size in degrees: the source literal 1e-4. -/
def TILE_DEGREES : ℚ := mkRat 1 10000

/-- Neighborhood half-width: the source literal 8. -/
def NEIGHBORHOOD_SIZE : Int := 8

/-- Spawn probability threshold: the source literal 0.1. -/
def CACHE_SPAWN_PROBABILITY : ℚ := mkRat 1 10

/-- State of the flyweight CellFactory.cellCache static Map. -/
abbrev CellStore := List (String × Cell)

namespace CellFactory

/-- CellFactory.getCell: retrieve or create the canonical cell for
(i, j).  The source mutates the static Map; here the updated store is
returned alongside the cell (the non-null assertion on the final get is
modelled with getD, whose default branch is unreachable). -/
def getCell (store : CellStore) (i j : Int) : Cell × CellStore :=
  let key := cellKey i j
  let store' := if mapHas store key then store else mapSet store key ⟨i, j⟩
  ((mapGet store' key).getD ⟨i, j⟩, store')

/-- CellFactory.getCellFromLatLng: quantize a coordinate to its cell,
flooring each coordinate divided by TILE_DEGREES (the source writes
(lat - 0) / TILE_DEGREES). -/
def getCellFromLatLng (store : CellStore) (lat lng : ℚ) : Cell × CellStore :=
  getCell store ⌊(lat - 0) / TILE_DEGREES⌋ ⌊(lng - 0) / TILE_DEGREES⌋

end CellFactory

/-- Pure quantization map used to state the quantizer claims: the cell
whose indices are the floors of the coordinates divided by
TILE_DEGREES. -/
def quantizeCell (lat lng : ℚ) : Cell :=
  ⟨⌊lat / TILE_DEGREES⌋, ⌊lng / TILE_DEGREES⌋⟩

/-- Rectangle bounds of a cache cell, rendering geometry computed in
spawnCache. -/
abbrev Bounds := (ℚ × ℚ) × (ℚ × ℚ)

/-- Bounds of the tile at cell (i, j), as computed in spawnCache. -/
def boundsAt (i j : Int) : Bounds :=
  let lat := Rat.ofInt i * TILE_DEGREES
  let lng := Rat.ofInt j * TILE_DEGREES
  ((lat, lng), (lat + TILE_DEGREES, lng + TILE_DEGREES))

/-- Live cache entity: ordered coin collection, position cell and
rectangle bounds (the Cache class of the source). -/
structure Cache where
  coins : List Coin
  position : Cell
  bounds : Bounds
deriving DecidableEq, Repr

/-- Serialized form of one coin inside a memento (the CoinData
interface): cell and serial, with the display method dropped. -/
structure CoinData where
  cell : Cell
  serial : Nat
deriving DecidableEq, Repr

/-- Decoded content of a cache memento.  The source serializes this
record with JSON.stringify and decodes it with JSON.parse; since that
round trip is lossless on this record shape (integer fields and nested
records only), the embedding carries the record itself as the memento
value. -/
structure MementoData where
  coins : List CoinData
  position : Cell
deriving DecidableEq, Repr

/-- Cache.positionToString: the directory key of a cache, derived from
its position. -/
def Cache.positionToString (c : Cache) : String :=
  cellKey c.position.i c.position.j

/-- Cache.toMemento: serialize position and the ordered coin list, each
coin reduced to (cell, serial). -/
def Cache.toMemento (c : Cache) : MementoData :=
  ⟨c.coins.map (fun coin => ⟨coin.cell, coin.serial⟩), c.position⟩

/-- Cache.fromMemento: replace position and coin collection with the
decoded ordered list, rebuilding each coin from its (cell, serial). -/
def Cache.fromMemento (c : Cache) (m : MementoData) : Cache :=
  { c with
    position := m.position
    coins := m.coins.map (fun d => ⟨d.cell, d.serial⟩) }

/-- State of the cacheMementos directory Map. -/
abbrev Mementos := List (String × MementoData)

/-- The collect function: if the coin is present in the cache (indexOf
is nonnegative in the source; here, less than the length), append it to
the player inventory, splice it out of the cache, and persist the
cache's memento into the directory; otherwise do nothing. -/
def collect (coin : Coin) (cache : Cache) (playerCoins : List Coin)
    (mems : Mementos) : Cache × List Coin × Mementos :=
  let coinIndex := cache.coins.indexOf coin
  if coinIndex < cache.coins.length then
    let playerCoins' := playerCoins ++ [coin]
    let cache' := { cache with coins := cache.coins.eraseIdx coinIndex }
    (cache', playerCoins', mapSet mems cache'.positionToString cache'.toMemento)
  else
    (cache, playerCoins, mems)

/-- The deposit function: if the coin is present in the player inventory,
splice it out, push it onto the cache's collection, and persist the
cache's memento; otherwise do nothing. -/
def deposit (coin : Coin) (cache : Cache) (playerCoins : List Coin)
    (mems : Mementos) : Cache × List Coin × Mementos :=
  let coinIndex := playerCoins.indexOf coin
  if coinIndex < playerCoins.length then
    let playerCoins' := playerCoins.eraseIdx coinIndex
    let cache' := { cache with coins := cache.coins ++ [coin] }
    (cache', playerCoins', mapSet mems cache'.positionToString cache'.toMemento)
  else
    (cache, playerCoins, mems)

/-- Modelled from the spec: the deterministic generator luck is imported
from ./luck.ts, which is not among the given sources.  Per the spec it
is a pure deterministic hash from a key string to a value in [0, 1),
identical for identical keys within and across runs; the embedding
therefore takes it as an arbitrary function from key strings to ℚ, and
theorems that need the codomain bound take it as a hypothesis. -/
abbrev LuckFn := String → ℚ

/-- Luck key for initial cache sizing: the source stringifies the array
[i, j, "initialValue"], which yields the cell key with the suffix
",initialValue". -/
def initialValueKey (i j : Int) : String := cellKey i j ++ ",initialValue"

/-- Initial coin count of a freshly generated cache:
floor(luck([i,j,"initialValue"]) * 100), clamped at zero exactly the way
the source's ascending for-loop is (a negative bound runs it zero
times); 100 is written mkRat 100 1. -/
def initialCoinCount (luck : LuckFn) (i j : Int) : Nat :=
  (⌊luck (initialValueKey i j) * mkRat 100 1⌋).toNat

/-- Freshly minted coins of a new cache at the given cell: serials 0
through the count minus one, in order. -/
def freshCoins (luck : LuckFn) (cell : Cell) (i j : Int) : List Coin :=
  (List.range (initialCoinCount luck i j)).map (fun serial => ⟨cell, serial⟩)

/-- Whole mutable session state of the event loop: the flyweight store,
the player position and inventory, the rectangle registry key set, the
memento directory, and the live cache layers currently on the map (in
insertion order, each carrying its Cache as the source stores it on the
rectangle). -/
structure GameState where
  cellStore : CellStore
  playerPos : ℚ × ℚ
  playerCoins : List Coin
  existingRectangles : List String
  cacheMementos : Mementos
  mapLayers : List Cache
deriving DecidableEq, Repr

/-- Main path of spawnCache, after the early-return guard: add a
rectangle layer, build the cache (restored from a memento if the
directory has one for this key, otherwise freshly populated), attach it
to the layer, and register the rectangle key. -/
def spawnCacheMain (luck : LuckFn) (i j : Int) (cell : Cell) (bounds : Bounds)
    (s : GameState) : Cache × GameState :=
  let positionKey := cellKey i j
  let base : Cache := ⟨[], cell, bounds⟩
  let cache :=
    match mapGet s.cacheMementos positionKey with
    | some m => base.fromMemento m
    | none => { base with coins := freshCoins luck cell i j }
  (cache,
    { s with
      mapLayers := s.mapLayers ++ [cache]
      existingRectangles := keySet s.existingRectangles positionKey })

/-- The spawnCache function.  The source first checks whether a
rectangle is already registered for this key; if so and a memento
exists, it returns a restored cache without touching the map, otherwise
it falls through to the main path. -/
def spawnCache (luck : LuckFn) (i j : Int) (s : GameState) : Cache × GameState :=
  let cs := CellFactory.getCell s.cellStore i j
  let s1 := { s with cellStore := cs.2 }
  let positionKey := cellKey i j
  let bounds := boundsAt i j
  if s1.existingRectangles.contains positionKey then
    match mapGet s1.cacheMementos positionKey with
    | some m => ((Cache.mk [] cs.1 bounds).fromMemento m, s1)
    | none => spawnCacheMain luck i j cs.1 bounds s1
  else spawnCacheMain luck i j cs.1 bounds s1

/-- Offsets enumerated by each axis of the spawn loop: the for-loop
from -NEIGHBORHOOD_SIZE inclusive to NEIGHBORHOOD_SIZE exclusive. -/
def neighborhoodOffsets : List Int :=
  (List.range (2 * NEIGHBORHOOD_SIZE).toNat).map
    (fun k => Int.ofNat k - NEIGHBORHOOD_SIZE)

/-- Offset pairs of the nested spawn loop, outer axis first, in loop
order. -/
def offsetPairs : List (Int × Int) :=
  neighborhoodOffsets.flatMap (fun i => neighborhoodOffsets.map (fun j => (i, j)))

/-- Cell reached from the center cell by one loop offset. -/
def cellAt (centerCell : Cell) (o : Int × Int) : Cell :=
  ⟨centerCell.i + o.1, centerCell.j + o.2⟩

/-- Cells the spawn loop evaluates for a given center cell, in loop
order. -/
def evaluatedCells (centerCell : Cell) : List Cell :=
  offsetPairs.map (cellAt centerCell)

/-- Body of the nested spawn loop for one offset pair: evaluate the
spawn decision for the shifted cell and materialize it if the luck
value is below the threshold. -/
def spawnStep (luck : LuckFn) (centerCell : Cell) (st : GameState)
    (o : Int × Int) : GameState :=
  let gridI := centerCell.i + o.1
  let gridJ := centerCell.j + o.2
  if luck (cellKey gridI gridJ) < CACHE_SPAWN_PROBABILITY then
    (spawnCache luck gridI gridJ st).2
  else st

/-- The spawnNearbyCaches function: quantize the center, then run the
nested loop over the neighborhood offsets. -/
def spawnNearbyCaches (luck : LuckFn) (center : ℚ × ℚ) (s : GameState) :
    GameState :=
  let cc := CellFactory.getCellFromLatLng s.cellStore center.1 center.2
  offsetPairs.foldl (spawnStep luck cc.1) { s with cellStore := cc.2 }

/-- The clearCaches function: capture every live cache's memento into
the directory (in layer order), remove the cache layers from the map,
and clear the rectangle registry. -/
def clearCaches (s : GameState) : GameState :=
  { s with
    cacheMementos :=
      s.mapLayers.foldl
        (fun ms c => mapSet ms c.positionToString c.toMemento)
        s.cacheMementos
    mapLayers := []
    existingRectangles := [] }

/-- The movePlayer function: update the player position (the marker and
the movement history polyline are rendering), tear down the caches, and
respawn around the new position. -/
def movePlayer (luck : LuckFn) (newPosition : ℚ × ℚ) (s : GameState) :
    GameState :=
  spawnNearbyCaches luck newPosition (clearCaches { s with playerPos := newPosition })

/-- The calculateNewPosition function: step one tile in the given
direction from the current position. -/
def calculateNewPosition (currentPosition : ℚ × ℚ) (direction : Int × Int) :
    ℚ × ℚ :=
  (currentPosition.1 + TILE_DEGREES * Rat.ofInt direction.1,
   currentPosition.2 + TILE_DEGREES * Rat.ofInt direction.2)

/-- Take-button handler of the popup bound to the live cache layer with
key k: if that cache holds coins, collect its last coin.  The popup
closure mutates the cache object stored on the layer; here that object
is the unique layer whose key matches, and the mutation is modelled by
replacing it in the layer list. -/
def takeButton (k : String) (s : GameState) : GameState :=
  match s.mapLayers.find? (fun c => c.positionToString == k) with
  | none => s
  | some cache =>
    match cache.coins.getLast? with
    | none => s
    | some coin =>
      let r := collect coin cache s.playerCoins s.cacheMementos
      { s with
        mapLayers :=
          s.mapLayers.map (fun c => if c.positionToString == k then r.1 else c)
        playerCoins := r.2.1
        cacheMementos := r.2.2 }

/-- Give-button handler of the popup bound to the live cache layer with
key k: if the player holds coins, deposit the most recently acquired
one into that cache. -/
def giveButton (k : String) (s : GameState) : GameState :=
  match s.mapLayers.find? (fun c => c.positionToString == k) with
  | none => s
  | some cache =>
    match s.playerCoins.getLast? with
    | none => s
    | some coin =>
      let r := deposit coin cache s.playerCoins s.cacheMementos
      { s with
        mapLayers :=
          s.mapLayers.map (fun c => if c.positionToString == k then r.1 else c)
        playerCoins := r.2.1
        cacheMementos := r.2.2 }

/-- Confirmed reset handler: clear the memento directory, remove every
cache layer from the map, clear the movement history (rendering) and
the player inventory, then regenerate caches around the current
position.  The source does not clear existingRectangles here; that is
preserved faithfully. -/
def resetGame (luck : LuckFn) (s : GameState) : GameState :=
  spawnNearbyCaches luck s.playerPos
    { s with cacheMementos := [], mapLayers := [], playerCoins := [] }

/-- Classroom coordinate the session starts at, as an exact rational
pair. -/
def OAKES_CLASSROOM : ℚ × ℚ :=
  (mkRat 3698949379578401 100000000000000,
   mkRat (-12206277128548504) 100000000000000)

/-- Session state with nothing materialized at the given position: all
module-level containers empty, as at the start of the script. -/
def pristineState (pos : ℚ × ℚ) : GameState :=
  ⟨[], pos, [], [], [], []⟩

/-- State after the module loads: every container starts empty and
spawnNearbyCaches runs once at the classroom coordinate. -/
def initialState (luck : LuckFn) : GameState :=
  spawnNearbyCaches luck OAKES_CLASSROOM (pristineState OAKES_CLASSROOM)

/-- External events that mutate core state: a movement to a new
coordinate (direction buttons step one tile via calculateNewPosition;
the geolocation sensor delivers arbitrary coordinates, so movement is
modelled with an arbitrary target), the take and give popup buttons of
a live cache layer, and the confirmed reset action. -/
inductive Event where
  | move (pos : ℚ × ℚ)
  | take (k : String)
  | give (k : String)
  | reset
deriving Repr

/-- Dispatch of one event against the session state. -/
def applyEvent (luck : LuckFn) : Event → GameState → GameState
  | Event.move pos => movePlayer luck pos
  | Event.take k => takeButton k
  | Event.give k => giveButton k
  | Event.reset => resetGame luck

/-- States the single-threaded event loop can reach: the initial load,
closed under events. -/
inductive Reachable (luck : LuckFn) : GameState → Prop where
  | init : Reachable luck (initialState luck)
  | step : ∀ s e, Reachable luck s → Reachable luck (applyEvent luck e s)

/-- Canonicity of the flyweight store: every entry is keyed by the cell
key of the cell it holds.  Together with injectivity of cellKey this
pins each stored cell to its own key. -/
def storeCanonical (store : CellStore) : Prop :=
  ∀ p ∈ store, p.1 = cellKey p.2.i p.2.j

/-- Consistency of the memento directory: every entry is keyed by the
cell key of the position recorded in the memento. -/
def mementosConsistent (ms : Mementos) : Prop :=
  ∀ p ∈ ms, p.1 = cellKey p.2.position.i p.2.position.j

/-- Structural invariant of the session state: canonical flyweight
store, consistent directory, and pairwise-distinct cells among the live
cache layers. -/
def Invariant (s : GameState) : Prop :=
  storeCanonical s.cellStore ∧ mementosConsistent s.cacheMementos ∧
    (s.mapLayers.map Cache.position).Nodup

/-- Cache value the spawn main path materializes at cell (i, j) for a
given directory state, assuming the flyweight hands back the canonical
cell: restored from the memento when one exists, freshly populated
otherwise.  Used to characterize the spawn loop. -/
def spawnedValue (luck : LuckFn) (ms : Mementos) (i j : Int) : Cache :=
  match mapGet ms (cellKey i j) with
  | some m => (Cache.mk [] ⟨i, j⟩ (boundsAt i j)).fromMemento m
  | none => Cache.mk (freshCoins luck ⟨i, j⟩ i j) ⟨i, j⟩ (boundsAt i j)

/-- Numeric value decoded from a decimal digit list; used only to prove
that the decimal rendering is injective. -/
def digsVal (ds : List Char) : Nat :=
  ds.foldl (fun a c => a * 10 + (c.toNat - 48)) 0

/-- Example luck table for concrete checks: the spawn draw for cell
(2, 2) is 0 (below the threshold, so it spawns), the sizing draw for
(2, 2) is 7/20 (35 initial coins), and every other key draws 1 (no
spawn). -/
def exLuck : LuckFn := fun k =>
  if k = cellKey 2 2 then mkRat 0 1
  else if k = initialValueKey 2 2 then mkRat 7 20
  else mkRat 1 1

/-- Coin B of the concrete teardown scenario: serial 1 at cell (2, 2). -/
def exCoinB : Coin := ⟨⟨2, 2⟩, 1⟩

/-- Coin C of the concrete teardown scenario: serial 2 at cell (2, 2). -/
def exCoinC : Coin := ⟨⟨2, 2⟩, 2⟩

/-- Live cache at (2, 2) holding [B, C] (coin A with serial 0 has been
collected into the inventory). -/
def exCache : Cache := ⟨[exCoinB, exCoinC], ⟨2, 2⟩, boundsAt 2 2⟩

/-- Concrete session state for the teardown scenario: the player at the
origin holds coin A, and the cache at (2, 2) is live with [B, C]. -/
def exState : GameState :=
  ⟨[], (mkRat 0 1, mkRat 0 1), [⟨⟨2, 2⟩, 0⟩], [cellKey 2 2],
    [(cellKey 2 2, exCache.toMemento)], [exCache]⟩

/-- Concrete session state for the reset scenario: one directory entry
and one inventory coin, no live layers. -/
def exStateReset : GameState :=
  ⟨[], (mkRat 0 1, mkRat 0 1), [⟨⟨2, 2⟩, 0⟩], [cellKey 2 2],
    [(cellKey 2 2, exCache.toMemento)], []⟩

/-- Origin coordinate used by the concrete checks. -/
def exPos : ℚ × ℚ := (mkRat 0 1, mkRat 0 1)

/-- Cache freshly generated at (2, 2) under exLuck: the sizing draw
7/20 gives floor(0.35 * 100) = 35 coins with serials 0 through 34. -/
def exFreshCache : Cache :=
  ⟨(List.range 35).map (fun serial => ⟨⟨2, 2⟩, serial⟩), ⟨2, 2⟩, boundsAt 2 2⟩

/-! Injectivity of the decimal key encoding. -/

theorem digitCh_toNat {d : Nat} (h : d < 10) : (digitCh d).toNat = 48 + d := by
  interval_cases d <;> rfl

theorem natDigs_eq_of_lt {n : Nat} (h : n < 10) : natDigs n = [digitCh n] := by
  rw [natDigs]; simp [h]

theorem natDigs_eq_of_ge {n : Nat} (h : ¬ n < 10) :
    natDigs n = natDigs (n / 10) ++ [digitCh (n % 10)] := by
  rw [natDigs]; simp [h]

theorem natDigs_mem_range {n : Nat} :
    ∀ c ∈ natDigs n, 48 ≤ c.toNat ∧ c.toNat ≤ 57 := by
  induction n using Nat.strong_induction_on with
  | _ n ih =>
    by_cases h : n < 10
    · rw [natDigs_eq_of_lt h]
      intro c hc
      rw [List.mem_singleton] at hc
      subst hc
      rw [digitCh_toNat h]
      omega
    · rw [natDigs_eq_of_ge h]
      intro c hc
      rcases List.mem_append.mp hc with h1 | h2
      · exact ih (n / 10) (Nat.div_lt_self (by omega) (by omega)) c h1
      · rw [List.mem_singleton] at h2
        subst h2
        rw [digitCh_toNat (Nat.mod_lt _ (by omega))]
        omega

theorem natDigs_ne_nil (n : Nat) : natDigs n ≠ [] := by
  by_cases h : n < 10
  · rw [natDigs_eq_of_lt h]; simp
  · rw [natDigs_eq_of_ge h]; simp

theorem natDigs_foldl (n : Nat) :
    ∀ a : Nat,
      (natDigs n).foldl (fun a c => a * 10 + (c.toNat - 48)) a =
        a * 10 ^ (natDigs n).length + n := by
  induction n using Nat.strong_induction_on with
  | _ n ih =>
    intro a
    by_cases h : n < 10
    · rw [natDigs_eq_of_lt h]
      simp [digitCh_toNat h]
    · rw [natDigs_eq_of_ge h]
      rw [List.foldl_append, ih (n / 10) (Nat.div_lt_self (by omega) (by omega))]
      simp only [List.foldl_cons, List.foldl_nil, List.length_append,
        List.length_singleton]
      rw [digitCh_toNat (Nat.mod_lt _ (by omega))]
      have e1 : (a * 10 ^ (natDigs (n / 10)).length + n / 10) * 10 + (48 + n % 10 - 48) =
          a * (10 ^ (natDigs (n / 10)).length * 10) + (n / 10 * 10 + n % 10) := by
        have : 48 + n % 10 - 48 = n % 10 := by omega
        rw [this]; ring
      rw [e1, pow_succ]
      omega

theorem digsVal_natDigs (n : Nat) : digsVal (natDigs n) = n := by
  rw [digsVal, natDigs_foldl n 0]
  simp

theorem natDigs_inj {m n : Nat} (h : natDigs m = natDigs n) : m = n := by
  have h2 : digsVal (natDigs m) = digsVal (natDigs n) := by rw [h]
  rwa [digsVal_natDigs, digsVal_natDigs] at h2

theorem digsCore_eq :
    ∀ fuel n acc, n < fuel → digsCore fuel n acc = natDigs n ++ acc := by
  intro fuel
  induction fuel with
  | zero => intro n acc h; omega
  | succ f ih =>
    intro n acc h
    by_cases h10 : n / 10 = 0
    · have hn : n < 10 := by omega
      simp [digsCore, h10, natDigs_eq_of_lt hn, Nat.mod_eq_of_lt hn]
    · have hn : ¬ n < 10 := by omega
      have hlt : n / 10 < f := by
        have h1 : n / 10 < n := Nat.div_lt_self (by omega) (by omega)
        omega
      simp only [digsCore, h10, if_false]
      rw [ih (n / 10) _ hlt, natDigs_eq_of_ge hn, List.append_assoc]
      rfl

theorem natStr_data (n : Nat) : (natStr n).data = natDigs n := by
  rw [natStr, digsCore_eq (n + 1) n [] (Nat.lt_succ_self n)]
  simp [List.asString]

theorem intStr_data :
    ∀ i : Int,
      (∃ m : Nat, i = Int.ofNat m ∧ (intStr i).data = natDigs m) ∨
        (∃ m : Nat, i = Int.negSucc m ∧ (intStr i).data = '-' :: natDigs (m + 1)) := by
  intro i
  cases i with
  | ofNat m => exact Or.inl ⟨m, rfl, by simp [intStr, natStr_data]⟩
  | negSucc m =>
    refine Or.inr ⟨m, rfl, ?_⟩
    show ("-" ++ natStr (m + 1)).data = '-' :: natDigs (m + 1)
    rw [String.data_append, natStr_data]
    rfl

theorem intStr_no_comma (i : Int) : ',' ∉ (intStr i).data := by
  rcases intStr_data i with ⟨m, _, h⟩ | ⟨m, _, h⟩ <;> rw [h] <;> intro hc
  · exact absurd (natDigs_mem_range _ hc) (by decide)
  · rcases List.mem_cons.mp hc with h1 | h1
    · exact absurd h1 (by decide)
    · exact absurd (natDigs_mem_range _ h1) (by decide)

theorem intStr_data_inj {i i' : Int}
    (h : (intStr i).data = (intStr i').data) : i = i' := by
  rcases intStr_data i with ⟨m, hm, hi⟩ | ⟨m, hm, hi⟩ <;>
    rcases intStr_data i' with ⟨m', hm', hi'⟩ | ⟨m', hm', hi'⟩ <;>
      rw [hi, hi'] at h
  · rw [hm, hm', natDigs_inj h]
  · exfalso
    have hmem : '-' ∈ natDigs m := h ▸ List.mem_cons_self '-' (natDigs (m' + 1))
    exact absurd (natDigs_mem_range _ hmem) (by decide)
  · exfalso
    have hmem : '-' ∈ natDigs m' := h.symm ▸ List.mem_cons_self '-' (natDigs (m + 1))
    exact absurd (natDigs_mem_range _ hmem) (by decide)
  · have h2 : natDigs (m + 1) = natDigs (m' + 1) := by injection h
    have h3 := natDigs_inj h2
    have h4 : m = m' := by omega
    rw [hm, hm', h4]

theorem comma_split {as bs as' bs' : List Char}
    (ha : ',' ∉ as) (ha' : ',' ∉ as')
    (h : as ++ ',' :: bs = as' ++ ',' :: bs') : as = as' ∧ bs = bs' := by
  induction as generalizing as' with
  | nil =>
    cases as' with
    | nil => simpa using h
    | cons x xs =>
      exfalso
      rw [List.nil_append, List.cons_append, List.cons_eq_cons] at h
      exact ha' (h.1 ▸ List.mem_cons_self x xs)
  | cons y ys ih =>
    cases as' with
    | nil =>
      exfalso
      rw [List.nil_append, List.cons_append, List.cons_eq_cons] at h
      exact ha (h.1 ▸ List.mem_cons_self y ys)
    | cons x xs =>
      rw [List.cons_append, List.cons_append, List.cons_eq_cons] at h
      have hys : ',' ∉ ys := fun hc => ha (List.mem_cons_of_mem _ hc)
      have hxs : ',' ∉ xs := fun hc => ha' (List.mem_cons_of_mem _ hc)
      have := ih hys hxs h.2
      exact ⟨by rw [h.1, this.1], this.2⟩

theorem cellKey_inj {i j i' j' : Int}
    (h : cellKey i j = cellKey i' j') : i = i' ∧ j = j' := by
  have hd := congrArg String.data h
  rw [cellKey, cellKey, String.data_append, String.data_append,
    String.data_append, String.data_append] at hd
  have hd2 : (intStr i).data ++ ',' :: (intStr j).data =
      (intStr i').data ++ ',' :: (intStr j').data := by
    simpa using hd
  have hs := comma_split (intStr_no_comma i) (intStr_no_comma i') hd2
  exact ⟨intStr_data_inj hs.1, intStr_data_inj hs.2⟩

theorem cellKey_cell_inj {p q : Cell}
    (h : cellKey p.i p.j = cellKey q.i q.j) : p = q := by
  have := cellKey_inj h
  cases p; cases q
  simp only [Cell.mk.injEq]
  exact this

/-! Association-list map lemmas. -/

theorem mapGet_mem {α : Type} {m : List (String × α)} {k : String} {v : α}
    (h : mapGet m k = some v) : (k, v) ∈ m := by
  induction m with
  | nil => simp [mapGet] at h
  | cons p rest ih =>
    obtain ⟨k', v'⟩ := p
    rw [mapGet] at h
    by_cases e : k' = k
    · rw [if_pos e] at h
      cases h
      subst e
      exact List.mem_cons_self _ _
    · rw [if_neg e] at h
      exact List.mem_cons_of_mem _ (ih h)

theorem mapGet_set_self {α : Type} (m : List (String × α)) (k : String) (v : α) :
    mapGet (mapSet m k v) k = some v := by
  induction m with
  | nil => simp [mapSet, mapGet]
  | cons p rest ih =>
    obtain ⟨k', v'⟩ := p
    rw [mapSet]
    by_cases e : k' = k
    · rw [if_pos e, mapGet, if_pos rfl]
    · rw [if_neg e, mapGet, if_neg e]
      exact ih

theorem mapGet_set_ne {α : Type} (m : List (String × α)) (k k' : String) (v : α)
    (h : k ≠ k') : mapGet (mapSet m k v) k' = mapGet m k' := by
  induction m with
  | nil => simp [mapSet, mapGet, h]
  | cons p rest ih =>
    obtain ⟨k0, v0⟩ := p
    by_cases e : k0 = k
    · subst e
      simp [mapSet, mapGet, h]
    · by_cases e' : k0 = k'
      · subst e'
        simp [mapSet, mapGet, e]
      · simp [mapSet, mapGet, e, e', ih]

theorem mapSet_mem {α : Type} {m : List (String × α)} {k : String} {v : α}
    {p : String × α} (h : p ∈ mapSet m k v) : p = (k, v) ∨ p ∈ m := by
  induction m with
  | nil => simpa [mapSet] using h
  | cons q rest ih =>
    obtain ⟨k0, v0⟩ := q
    rw [mapSet] at h
    by_cases e : k0 = k
    · rw [if_pos e] at h
      rcases List.mem_cons.mp h with h1 | h1
      · exact Or.inl h1
      · exact Or.inr (List.mem_cons_of_mem _ h1)
    · rw [if_neg e] at h
      rcases List.mem_cons.mp h with h1 | h1
      · exact Or.inr (h1 ▸ List.mem_cons_self _ _)
      · rcases ih h1 with h2 | h2
        · exact Or.inl h2
        · exact Or.inr (List.mem_cons_of_mem _ h2)

theorem keySet_contains_of_ne (ks : List String) (k k' : String) (h : k' ≠ k) :
    (keySet ks k).contains k' = ks.contains k' := by
  rw [keySet]
  by_cases e : k ∈ ks
  · rw [if_pos e]
  · rw [if_neg e]
    simp [List.contains, h]

/-! Flyweight store lemmas. -/

theorem storeCanonical_lookup {store : CellStore} {i j : Int} {c : Cell}
    (hs : storeCanonical store) (h : mapGet store (cellKey i j) = some c) :
    c = ⟨i, j⟩ := by
  have hmem := mapGet_mem h
  have hk : cellKey i j = cellKey c.i c.j := hs _ hmem
  have h2 := cellKey_inj hk
  cases c
  simp only [Cell.mk.injEq]
  exact ⟨h2.1.symm, h2.2.symm⟩

theorem getCell_fst {store : CellStore} (i j : Int)
    (hs : storeCanonical store) :
    (CellFactory.getCell store i j).1 = ⟨i, j⟩ := by
  rw [CellFactory.getCell]
  by_cases h : mapHas store (cellKey i j) = true
  · simp only [h, if_true]
    rw [mapHas, Option.isSome_iff_exists] at h
    obtain ⟨c, hc⟩ := h
    rw [hc]
    exact storeCanonical_lookup hs hc
  · simp only [h, if_false]
    rw [Bool.not_eq_true] at h
    simp [mapGet_set_self]

theorem getCell_canonical {store : CellStore} (i j : Int)
    (hs : storeCanonical store) :
    storeCanonical (CellFactory.getCell store i j).2 := by
  rw [CellFactory.getCell]
  by_cases h : mapHas store (cellKey i j) = true
  · simpa [h] using hs
  · simp only [h, Bool.false_eq_true, if_false]
    intro p hp
    rcases mapSet_mem hp with h1 | h1
    · rw [h1]
    · exact hs _ h1

theorem getCell_snd_of_has {store : CellStore} (i j : Int)
    (h : mapHas store (cellKey i j) = true) :
    (CellFactory.getCell store i j).2 = store := by
  rw [CellFactory.getCell]
  simp [h]

theorem getCell_snd_has (store : CellStore) (i j : Int) :
    mapHas (CellFactory.getCell store i j).2 (cellKey i j) = true := by
  rw [CellFactory.getCell]
  by_cases h : mapHas store (cellKey i j) = true
  · simp [h]
  · simp only [h, Bool.false_eq_true, if_false]
    rw [mapHas, mapGet_set_self]
    rfl

theorem mementos_lookup_key {ms : Mementos} {k : String} {m : MementoData}
    (hc : mementosConsistent ms) (hg : mapGet ms k = some m) :
    k = cellKey m.position.i m.position.j :=
  hc _ (mapGet_mem hg)

/-! Memento round-trip support. -/

theorem roundtrip_coins (l : List Coin) :
    (l.map (fun coin => (⟨coin.cell, coin.serial⟩ : CoinData))).map
      (fun d => (⟨d.cell, d.serial⟩ : Coin)) = l := by
  induction l with
  | nil => rfl
  | cons c rest ih => simp [ih]

theorem fromMemento_toMemento_coins (c0 c : Cache) :
    (c0.fromMemento c.toMemento).coins = c.coins := by
  rw [Cache.fromMemento, Cache.toMemento]
  exact roundtrip_coins c.coins

theorem fromMemento_position (c0 : Cache) (m : MementoData) :
    (c0.fromMemento m).position = m.position := rfl

theorem spawnedValue_position {luck : LuckFn} {ms : Mementos} {i j : Int}
    (hc : mementosConsistent ms) :
    (spawnedValue luck ms i j).position = ⟨i, j⟩ := by
  rw [spawnedValue]
  cases hg : mapGet ms (cellKey i j) with
  | none => rfl
  | some m =>
    rw [fromMemento_position]
    have hk := mementos_lookup_key hc hg
    exact (cellKey_cell_inj (p := m.position) (q := ⟨i, j⟩) hk.symm)

/-! Transfer lemmas. -/

theorem collect_eq_of_mem {coin : Coin} {cache : Cache} {inv : List Coin}
    {ms : Mementos} (h : coin ∈ cache.coins) :
    collect coin cache inv ms =
      ({ cache with coins := cache.coins.erase coin }, inv ++ [coin],
        mapSet ms cache.positionToString
          ({ cache with coins := cache.coins.erase coin }).toMemento) := by
  rw [collect]
  simp only [if_pos (List.indexOf_lt_length.mpr h),
    List.eraseIdx_indexOf_eq_erase]
  rfl

theorem collect_eq_of_not_mem {coin : Coin} {cache : Cache} {inv : List Coin}
    {ms : Mementos} (h : coin ∉ cache.coins) :
    collect coin cache inv ms = (cache, inv, ms) := by
  rw [collect]
  exact if_neg (fun hlt => h (List.indexOf_lt_length.mp hlt))

theorem deposit_eq_of_mem {coin : Coin} {cache : Cache} {inv : List Coin}
    {ms : Mementos} (h : coin ∈ inv) :
    deposit coin cache inv ms =
      ({ cache with coins := cache.coins ++ [coin] }, inv.erase coin,
        mapSet ms cache.positionToString
          ({ cache with coins := cache.coins ++ [coin] }).toMemento) := by
  rw [deposit]
  simp only [if_pos (List.indexOf_lt_length.mpr h),
    List.eraseIdx_indexOf_eq_erase]
  rfl

theorem deposit_eq_of_not_mem {coin : Coin} {cache : Cache} {inv : List Coin}
    {ms : Mementos} (h : coin ∉ inv) :
    deposit coin cache inv ms = (cache, inv, ms) := by
  rw [deposit]
  exact if_neg (fun hlt => h (List.indexOf_lt_length.mp hlt))

/-- C2: for every Cache with any position and any ordered token list,
applying fromMemento after toMemento (to the cache itself or to any
freshly constructed receiver) yields a cache with the same cell
position, the same token count, and the same ordered (cell, serial)
pairs: restoration is lossless for serials, order, and position. -/
theorem memento_roundtrip (c0 c : Cache) :
    (c0.fromMemento c.toMemento).position = c.position ∧
      (c0.fromMemento c.toMemento).coins.length = c.coins.length ∧
      (c0.fromMemento c.toMemento).coins = c.coins := by
  refine ⟨rfl, ?_, fromMemento_toMemento_coins c0 c⟩
  rw [fromMemento_toMemento_coins]

/-- C5: collect removes the token from the cache, appends it to the
player inventory and immediately persists the cache's memento under its
cell key, exactly when the token is present in the cache; when it is
absent both cache and inventory are left unchanged and nothing is
persisted (no error).  deposit is symmetric with respect to the player
inventory, and an invocation with a token no longer present is a
no-op. -/
theorem transfer_protocol (coin : Coin) (cache : Cache) (inv : List Coin)
    (ms : Mementos) :
    (coin ∈ cache.coins →
        collect coin cache inv ms =
          ({ cache with coins := cache.coins.erase coin }, inv ++ [coin],
            mapSet ms cache.positionToString
              ({ cache with coins := cache.coins.erase coin }).toMemento)) ∧
      (coin ∉ cache.coins → collect coin cache inv ms = (cache, inv, ms)) ∧
      (coin ∈ inv →
        deposit coin cache inv ms =
          ({ cache with coins := cache.coins ++ [coin] }, inv.erase coin,
            mapSet ms cache.positionToString
              ({ cache with coins := cache.coins ++ [coin] }).toMemento)) ∧
      (coin ∉ inv → deposit coin cache inv ms = (cache, inv, ms)) :=
  ⟨fun h => collect_eq_of_mem h, fun h => collect_eq_of_not_mem h,
    fun h => deposit_eq_of_mem h, fun h => deposit_eq_of_not_mem h⟩

/-- C10: every invocation of collect or deposit leaves the combined
multiset of tokens held by the affected cache and the player inventory
unchanged; a successful transfer moves exactly one token between the
two collections and an unsuccessful one moves none. -/
theorem transfer_conservation (coin : Coin) (cache : Cache) (inv : List Coin)
    (ms : Mementos) :
    ((collect coin cache inv ms).1.coins : Multiset Coin) +
          ((collect coin cache inv ms).2.1 : Multiset Coin) =
        (cache.coins : Multiset Coin) + (inv : Multiset Coin) ∧
      ((deposit coin cache inv ms).1.coins : Multiset Coin) +
          ((deposit coin cache inv ms).2.1 : Multiset Coin) =
        (cache.coins : Multiset Coin) + (inv : Multiset Coin) := by
  constructor
  · by_cases h : coin ∈ cache.coins
    · rw [collect_eq_of_mem h]
      rw [Multiset.coe_add, Multiset.coe_add, Multiset.coe_eq_coe]
      have h1 : cache.coins.Perm (coin :: cache.coins.erase coin) :=
        List.perm_cons_erase h
      have p2 : (cache.coins.erase coin ++ (inv ++ [coin])).Perm
          (cache.coins.erase coin ++ (coin :: inv)) :=
        List.Perm.append_left _ (List.perm_append_singleton _ _)
      have p3 : (cache.coins.erase coin ++ (coin :: inv)).Perm
          ((coin :: cache.coins.erase coin) ++ inv) := List.perm_middle
      have p5 : ((coin :: cache.coins.erase coin) ++ inv).Perm
          (cache.coins ++ inv) := List.Perm.append_right _ h1.symm
      exact p2.trans (p3.trans p5)
    · rw [collect_eq_of_not_mem h]
  · by_cases h : coin ∈ inv
    · rw [deposit_eq_of_mem h]
      rw [Multiset.coe_add, Multiset.coe_add, Multiset.coe_eq_coe]
      have h1 : inv.Perm (coin :: inv.erase coin) := List.perm_cons_erase h
      have p2 : ((cache.coins ++ [coin]) ++ inv.erase coin).Perm
          (cache.coins ++ (coin :: inv.erase coin)) := by
        rw [List.append_assoc]
        exact List.Perm.refl _
      have p3 : (cache.coins ++ (coin :: inv.erase coin)).Perm
          (cache.coins ++ inv) := List.Perm.append_left _ h1.symm
      exact p2.trans p3
    · rw [deposit_eq_of_not_mem h]

/-- C8: repeated getCell calls with the same integer pair return the
same canonical cell and leave the registry untouched (the second call
performs no allocation), the returned cell is the one for (i, j), and
calls with distinct pairs return distinct cells; the operation is total
and never fails. -/
theorem flyweight_identity (store : CellStore) (i j : Int)
    (hs : storeCanonical store) :
    (CellFactory.getCell store i j).1 = ⟨i, j⟩ ∧
      (CellFactory.getCell (CellFactory.getCell store i j).2 i j).1 =
        (CellFactory.getCell store i j).1 ∧
      (CellFactory.getCell (CellFactory.getCell store i j).2 i j).2 =
        (CellFactory.getCell store i j).2 ∧
      ∀ i' j' : Int, (i, j) ≠ (i', j') →
        (CellFactory.getCell store i' j').1 ≠ (CellFactory.getCell store i j).1 := by
  have h1 := getCell_fst i j hs
  have hcan := getCell_canonical i j hs
  have hhas := getCell_snd_has store i j
  refine ⟨h1, ?_, getCell_snd_of_has i j hhas, ?_⟩
  · rw [getCell_fst i j hcan, h1]
  · intro i' j' hne
    rw [h1, getCell_fst i' j' hs]
    intro hc
    injection hc with hi hj
    exact hne (by rw [hi, hj])

/-- C9: quantization maps every coordinate pair to the cell whose
indices are the floors (rounding toward negative infinity, not
truncation) of latitude and longitude divided by TILE_DEGREES; it is a
total function of the coordinates with no effect on which cell value is
produced by the registry state. -/
theorem coordinate_quantization (store : CellStore) (lat lng : ℚ)
    (hs : storeCanonical store) :
    (CellFactory.getCellFromLatLng store lat lng).1 = quantizeCell lat lng := by
  rw [CellFactory.getCellFromLatLng, getCell_fst _ _ hs, quantizeCell]
  simp [sub_zero]

/-! Spawn machinery lemmas. -/

theorem spawnCache_cellStore (luck : LuckFn) (i j : Int) (s : GameState) :
    ((spawnCache luck i j s).2).cellStore = (CellFactory.getCell s.cellStore i j).2 := by
  simp only [spawnCache, spawnCacheMain]
  split
  · split <;> rfl
  · rfl

theorem spawnCache_cacheMementos (luck : LuckFn) (i j : Int) (s : GameState) :
    ((spawnCache luck i j s).2).cacheMementos = s.cacheMementos := by
  simp only [spawnCache, spawnCacheMain]
  split
  · split <;> rfl
  · rfl

theorem spawnCache_playerCoins (luck : LuckFn) (i j : Int) (s : GameState) :
    ((spawnCache luck i j s).2).playerCoins = s.playerCoins := by
  simp only [spawnCache, spawnCacheMain]
  split
  · split <;> rfl
  · rfl

theorem spawnCache_playerPos (luck : LuckFn) (i j : Int) (s : GameState) :
    ((spawnCache luck i j s).2).playerPos = s.playerPos := by
  simp only [spawnCache, spawnCacheMain]
  split
  · split <;> rfl
  · rfl

theorem spawnCache_canonical {luck : LuckFn} {i j : Int} {s : GameState}
    (h : storeCanonical s.cellStore) :
    storeCanonical ((spawnCache luck i j s).2).cellStore := by
  rw [spawnCache_cellStore]
  exact getCell_canonical i j h

theorem spawnCacheMain_eq (luck : LuckFn) (i j : Int) (s : GameState) :
    spawnCacheMain luck i j ⟨i, j⟩ (boundsAt i j) s =
      (spawnedValue luck s.cacheMementos i j,
        { s with
          mapLayers := s.mapLayers ++ [spawnedValue luck s.cacheMementos i j]
          existingRectangles := keySet s.existingRectangles (cellKey i j) }) := by
  rw [spawnCacheMain, spawnedValue]

theorem spawnCache_eq_main {luck : LuckFn} {i j : Int} {s : GameState}
    (hs : storeCanonical s.cellStore)
    (hguard : s.existingRectangles.contains (cellKey i j) = false ∨
      mapGet s.cacheMementos (cellKey i j) = none) :
    spawnCache luck i j s =
      (spawnedValue luck s.cacheMementos i j,
        { s with
          cellStore := (CellFactory.getCell s.cellStore i j).2
          mapLayers := s.mapLayers ++ [spawnedValue luck s.cacheMementos i j]
          existingRectangles := keySet s.existingRectangles (cellKey i j) }) := by
  have hc := getCell_fst i j hs
  simp only [spawnCache]
  rw [hc]
  by_cases hcon : s.existingRectangles.contains (cellKey i j) = true
  · rcases hguard with hg | hg
    · rw [hcon] at hg
      exact absurd hg (by simp)
    · simp only [hcon, if_true]
      rw [hg]
      exact spawnCacheMain_eq luck i j _
  · simp only [Bool.not_eq_true] at hcon
    simp only [hcon, Bool.false_eq_true, if_false]
    exact spawnCacheMain_eq luck i j _

theorem spawnCache_snd_eq {luck : LuckFn} {i j : Int} {s : GameState}
    (hs : storeCanonical s.cellStore)
    (hguard : s.existingRectangles.contains (cellKey i j) = false ∨
      mapGet s.cacheMementos (cellKey i j) = none) :
    (spawnCache luck i j s).2 =
      { s with
        cellStore := (CellFactory.getCell s.cellStore i j).2
        mapLayers := s.mapLayers ++ [spawnedValue luck s.cacheMementos i j]
        existingRectangles := keySet s.existingRectangles (cellKey i j) } := by
  rw [spawnCache_eq_main hs hguard]

theorem spawnStep_cacheMementos (luck : LuckFn) (cc : Cell) (st : GameState)
    (o : Int × Int) :
    (spawnStep luck cc st o).cacheMementos = st.cacheMementos := by
  simp only [spawnStep]
  split
  · exact spawnCache_cacheMementos luck _ _ st
  · rfl

theorem spawnStep_playerCoins (luck : LuckFn) (cc : Cell) (st : GameState)
    (o : Int × Int) :
    (spawnStep luck cc st o).playerCoins = st.playerCoins := by
  simp only [spawnStep]
  split
  · exact spawnCache_playerCoins luck _ _ st
  · rfl

theorem spawnStep_playerPos (luck : LuckFn) (cc : Cell) (st : GameState)
    (o : Int × Int) :
    (spawnStep luck cc st o).playerPos = st.playerPos := by
  simp only [spawnStep]
  split
  · exact spawnCache_playerPos luck _ _ st
  · rfl

theorem spawnStep_canonical {luck : LuckFn} {cc : Cell} {st : GameState}
    {o : Int × Int} (h : storeCanonical st.cellStore) :
    storeCanonical (spawnStep luck cc st o).cellStore := by
  simp only [spawnStep]
  split
  · exact spawnCache_canonical h
  · exact h

theorem spawnLoop_cacheMementos (luck : LuckFn) (cc : Cell) :
    ∀ (l : List (Int × Int)) (st : GameState),
      (l.foldl (spawnStep luck cc) st).cacheMementos = st.cacheMementos := by
  intro l
  induction l with
  | nil => intro st; rfl
  | cons o rest ih =>
    intro st
    rw [List.foldl_cons, ih, spawnStep_cacheMementos]

theorem spawnLoop_playerCoins (luck : LuckFn) (cc : Cell) :
    ∀ (l : List (Int × Int)) (st : GameState),
      (l.foldl (spawnStep luck cc) st).playerCoins = st.playerCoins := by
  intro l
  induction l with
  | nil => intro st; rfl
  | cons o rest ih =>
    intro st
    rw [List.foldl_cons, ih, spawnStep_playerCoins]

theorem spawnLoop_playerPos (luck : LuckFn) (cc : Cell) :
    ∀ (l : List (Int × Int)) (st : GameState),
      (l.foldl (spawnStep luck cc) st).playerPos = st.playerPos := by
  intro l
  induction l with
  | nil => intro st; rfl
  | cons o rest ih =>
    intro st
    rw [List.foldl_cons, ih, spawnStep_playerPos]

theorem spawnLoop_canonical (luck : LuckFn) (cc : Cell) :
    ∀ (l : List (Int × Int)) (st : GameState),
      storeCanonical st.cellStore →
      storeCanonical (l.foldl (spawnStep luck cc) st).cellStore := by
  intro l
  induction l with
  | nil => intro st h; exact h
  | cons o rest ih =>
    intro st h
    rw [List.foldl_cons]
    exact ih _ (spawnStep_canonical h)

theorem cellAt_inj (cc : Cell) {o o' : Int × Int}
    (h : cellAt cc o = cellAt cc o') : o = o' := by
  obtain ⟨a, b⟩ := o
  obtain ⟨a', b'⟩ := o'
  simp only [cellAt, Cell.mk.injEq] at h
  simp only [Prod.mk.injEq]
  omega

theorem spawnLoop_layers (luck : LuckFn) (cc : Cell) :
    ∀ (l : List (Int × Int)) (st : GameState),
      storeCanonical st.cellStore →
      (l.map (cellAt cc)).Nodup →
      (∀ o ∈ l,
        st.existingRectangles.contains (cellKey (cc.i + o.1) (cc.j + o.2)) = false ∨
          mapGet st.cacheMementos (cellKey (cc.i + o.1) (cc.j + o.2)) = none) →
      (l.foldl (spawnStep luck cc) st).mapLayers =
        st.mapLayers ++
          (l.filter (fun o =>
            decide (luck (cellKey (cc.i + o.1) (cc.j + o.2)) <
              CACHE_SPAWN_PROBABILITY))).map
            (fun o => spawnedValue luck st.cacheMementos (cc.i + o.1) (cc.j + o.2)) := by
  intro l
  induction l with
  | nil => intro st _ _ _; simp
  | cons o rest ih =>
    intro st hs hnd hg
    rw [List.foldl_cons]
    have hndr : (rest.map (cellAt cc)).Nodup := (List.nodup_cons.mp hnd).2
    have hnoto : cellAt cc o ∉ rest.map (cellAt cc) := (List.nodup_cons.mp hnd).1
    by_cases hl : luck (cellKey (cc.i + o.1) (cc.j + o.2)) < CACHE_SPAWN_PROBABILITY
    · have hgo := hg o (List.mem_cons_self _ _)
      have hstep : spawnStep luck cc st o =
          (spawnCache luck (cc.i + o.1) (cc.j + o.2) st).2 := by
        simp only [spawnStep, if_pos hl]
      rw [hstep, spawnCache_snd_eq hs hgo]
      have hkeys : ∀ o' ∈ rest,
          cellKey (cc.i + o'.1) (cc.j + o'.2) ≠ cellKey (cc.i + o.1) (cc.j + o.2) := by
        intro o' ho' hk
        have h2 := cellKey_inj hk
        apply hnoto
        have : cellAt cc o = cellAt cc o' := by
          simp only [cellAt, Cell.mk.injEq]
          exact ⟨h2.1.symm, h2.2.symm⟩
        rw [this]
        exact List.mem_map_of_mem _ ho'
      have hres := ih
        { st with
          cellStore := (CellFactory.getCell st.cellStore (cc.i + o.1) (cc.j + o.2)).2
          mapLayers := st.mapLayers ++
            [spawnedValue luck st.cacheMementos (cc.i + o.1) (cc.j + o.2)]
          existingRectangles := keySet st.existingRectangles
            (cellKey (cc.i + o.1) (cc.j + o.2)) }
        (getCell_canonical _ _ hs) hndr ?_
      · rw [hres]
        have hfil : (o :: rest).filter (fun o =>
            decide (luck (cellKey (cc.i + o.1) (cc.j + o.2)) <
              CACHE_SPAWN_PROBABILITY)) =
            o :: rest.filter (fun o =>
              decide (luck (cellKey (cc.i + o.1) (cc.j + o.2)) <
                CACHE_SPAWN_PROBABILITY)) := by
          rw [List.filter_cons]
          simp [hl]
        rw [hfil, List.map_cons, List.append_assoc]
        rfl
      · intro o' ho'
        rcases hg o' (List.mem_cons_of_mem _ ho') with h1 | h1
        · left
          rw [keySet_contains_of_ne _ _ _ (hkeys o' ho')]
          exact h1
        · right
          exact h1
    · have hstep : spawnStep luck cc st o = st := by
        simp only [spawnStep, if_neg hl]
      rw [hstep]
      have hfil : (o :: rest).filter (fun o =>
          decide (luck (cellKey (cc.i + o.1) (cc.j + o.2)) <
            CACHE_SPAWN_PROBABILITY)) =
          rest.filter (fun o =>
            decide (luck (cellKey (cc.i + o.1) (cc.j + o.2)) <
              CACHE_SPAWN_PROBABILITY)) := by
        rw [List.filter_cons]
        simp [hl]
      rw [hfil]
      exact ih st hs hndr (fun o' ho' => hg o' (List.mem_cons_of_mem _ ho'))

/-! Neighborhood enumeration facts. -/

theorem mem_neighborhoodOffsets {x : Int} :
    x ∈ neighborhoodOffsets ↔ -8 ≤ x ∧ x < 8 := by
  simp only [neighborhoodOffsets, NEIGHBORHOOD_SIZE, List.mem_map, List.mem_range]
  constructor
  · rintro ⟨k, hk, rfl⟩
    simp only [Int.ofNat_eq_natCast]
    omega
  · intro hx
    refine ⟨(x + 8).toNat, by omega, ?_⟩
    simp only [Int.ofNat_eq_natCast]
    omega

theorem neighborhoodOffsets_nodup : neighborhoodOffsets.Nodup := by
  refine List.Nodup.map ?_ (List.nodup_range _)
  intro a b hab
  simp only [Int.ofNat_eq_natCast] at hab
  omega

theorem nodup_pairs {l1 l2 : List Int} (h1 : l1.Nodup) (h2 : l2.Nodup) :
    (l1.flatMap (fun i => l2.map (fun j => (i, j)))).Nodup := by
  induction l1 with
  | nil => simp
  | cons a rest ih =>
    rw [List.flatMap_cons]
    have hcons := List.nodup_cons.mp h1
    apply List.Nodup.append
    · refine List.Nodup.map ?_ h2
      intro x y hxy
      simpa using hxy
    · exact ih hcons.2
    · intro x hx1 hx2
      rcases List.mem_map.mp hx1 with ⟨j, _, rfl⟩
      rcases List.mem_flatMap.mp hx2 with ⟨i, hi, hmem⟩
      rcases List.mem_map.mp hmem with ⟨j', _, heq⟩
      have : i = a := by
        have := congrArg Prod.fst heq
        simpa using this
      exact hcons.1 (this ▸ hi)

theorem offsetPairs_nodup : offsetPairs.Nodup :=
  nodup_pairs neighborhoodOffsets_nodup neighborhoodOffsets_nodup

theorem mem_offsetPairs {o : Int × Int} :
    o ∈ offsetPairs ↔ (-8 ≤ o.1 ∧ o.1 < 8) ∧ (-8 ≤ o.2 ∧ o.2 < 8) := by
  obtain ⟨a, b⟩ := o
  constructor
  · intro h
    rcases List.mem_flatMap.mp h with ⟨i, hi, hmem⟩
    rcases List.mem_map.mp hmem with ⟨j, hj, heq⟩
    cases heq
    exact ⟨mem_neighborhoodOffsets.mp hi, mem_neighborhoodOffsets.mp hj⟩
  · rintro ⟨h1, h2⟩
    exact List.mem_flatMap.mpr ⟨a, mem_neighborhoodOffsets.mpr h1,
      List.mem_map.mpr ⟨b, mem_neighborhoodOffsets.mpr h2, rfl⟩⟩

theorem evaluatedCells_nodup (cc : Cell) :
    (offsetPairs.map (cellAt cc)).Nodup := by
  refine List.Nodup.map ?_ offsetPairs_nodup
  intro o o' h
  exact cellAt_inj cc h

theorem mem_evaluatedCells {cc : Cell} {a b : Int} :
    (⟨a, b⟩ : Cell) ∈ evaluatedCells cc ↔
      (cc.i + -8 ≤ a ∧ a < cc.i + 8) ∧ (cc.j + -8 ≤ b ∧ b < cc.j + 8) := by
  rw [evaluatedCells]
  constructor
  · intro h
    rcases List.mem_map.mp h with ⟨o, ho, heq⟩
    have hw := mem_offsetPairs.mp ho
    obtain ⟨oa, ob⟩ := o
    simp only [cellAt, Cell.mk.injEq] at heq
    simp only at hw
    omega
  · rintro ⟨h1, h2⟩
    refine List.mem_map.mpr ⟨(a - cc.i, b - cc.j), mem_offsetPairs.mpr ?_, ?_⟩
    · constructor <;> constructor <;> omega
    · simp only [cellAt, Cell.mk.injEq]
      omega

/-! Quantizer helper shared across claims. -/

theorem getCellFromLatLng_fst {store : CellStore} {lat lng : ℚ}
    (hs : storeCanonical store) :
    (CellFactory.getCellFromLatLng store lat lng).1 = quantizeCell lat lng := by
  rw [CellFactory.getCellFromLatLng, getCell_fst _ _ hs, quantizeCell]
  simp [sub_zero]

theorem getCellFromLatLng_canonical {store : CellStore} {lat lng : ℚ}
    (hs : storeCanonical store) :
    storeCanonical (CellFactory.getCellFromLatLng store lat lng).2 := by
  rw [CellFactory.getCellFromLatLng]
  exact getCell_canonical _ _ hs

/-! State-level facts about spawnNearbyCaches. -/

theorem spawnNearby_cacheMementos (luck : LuckFn) (center : ℚ × ℚ)
    (s : GameState) :
    (spawnNearbyCaches luck center s).cacheMementos = s.cacheMementos := by
  rw [spawnNearbyCaches]
  rw [spawnLoop_cacheMementos]

theorem spawnNearby_playerCoins (luck : LuckFn) (center : ℚ × ℚ)
    (s : GameState) :
    (spawnNearbyCaches luck center s).playerCoins = s.playerCoins := by
  rw [spawnNearbyCaches]
  rw [spawnLoop_playerCoins]

theorem spawnNearby_playerPos (luck : LuckFn) (center : ℚ × ℚ)
    (s : GameState) :
    (spawnNearbyCaches luck center s).playerPos = s.playerPos := by
  rw [spawnNearbyCaches]
  rw [spawnLoop_playerPos]

theorem spawnNearby_canonical {luck : LuckFn} {center : ℚ × ℚ} {s : GameState}
    (hs : storeCanonical s.cellStore) :
    storeCanonical (spawnNearbyCaches luck center s).cellStore := by
  rw [spawnNearbyCaches]
  exact spawnLoop_canonical luck _ offsetPairs _ (getCellFromLatLng_canonical hs)

theorem spawnNearby_layers {luck : LuckFn} {center : ℚ × ℚ} {s : GameState}
    (hs : storeCanonical s.cellStore)
    (hg : s.existingRectangles = [] ∨ s.cacheMementos = []) :
    (spawnNearbyCaches luck center s).mapLayers =
      s.mapLayers ++
        (offsetPairs.filter (fun o =>
          decide (luck (cellKey ((quantizeCell center.1 center.2).i + o.1)
            ((quantizeCell center.1 center.2).j + o.2)) <
            CACHE_SPAWN_PROBABILITY))).map
          (fun o => spawnedValue luck s.cacheMementos
            ((quantizeCell center.1 center.2).i + o.1)
            ((quantizeCell center.1 center.2).j + o.2)) := by
  rw [spawnNearbyCaches]
  rw [getCellFromLatLng_fst hs]
  rw [spawnLoop_layers luck _ offsetPairs _ (getCellFromLatLng_canonical hs)
    (evaluatedCells_nodup _) ?_]
  · intro o _
    rcases hg with h | h
    · left
      show s.existingRectangles.contains _ = false
      rw [h]
      rfl
    · right
      show mapGet s.cacheMementos _ = none
      rw [h]
      rfl

/-! Teardown capture lemmas. -/

theorem captureFold_get_other :
    ∀ (l : List Cache) (ms : Mementos) (k : String),
      (∀ c ∈ l, c.positionToString ≠ k) →
      mapGet (l.foldl (fun ms c => mapSet ms c.positionToString c.toMemento) ms) k =
        mapGet ms k := by
  intro l
  induction l with
  | nil => intro ms k _; rfl
  | cons c rest ih =>
    intro ms k hne
    rw [List.foldl_cons]
    rw [ih _ _ (fun c' hc' => hne c' (List.mem_cons_of_mem _ hc'))]
    exact mapGet_set_ne _ _ _ _ (hne c (List.mem_cons_self _ _))

theorem captureFold_get :
    ∀ (l : List Cache) (ms : Mementos) (c : Cache),
      c ∈ l → (l.map Cache.position).Nodup →
      mapGet (l.foldl (fun ms c => mapSet ms c.positionToString c.toMemento) ms)
        c.positionToString = some c.toMemento := by
  intro l
  induction l with
  | nil => intro ms c h _; simp at h
  | cons c0 rest ih =>
    intro ms c hc hnd
    rw [List.foldl_cons]
    rw [List.map_cons] at hnd
    have hnd' := List.nodup_cons.mp hnd
    rcases List.mem_cons.mp hc with rfl | hcr
    · rw [captureFold_get_other rest _ _ ?_]
      · exact mapGet_set_self _ _ _
      · intro c' hc' hkey
        apply hnd'.1
        have hpos : c'.position = c.position := cellKey_cell_inj hkey
        rw [← hpos]
        exact List.mem_map_of_mem _ hc'
    · exact ih _ _ hcr hnd'.2

theorem captureFold_consistent :
    ∀ (l : List Cache) (ms : Mementos),
      mementosConsistent ms →
      mementosConsistent
        (l.foldl (fun ms c => mapSet ms c.positionToString c.toMemento) ms) := by
  intro l
  induction l with
  | nil => intro ms h; exact h
  | cons c rest ih =>
    intro ms h
    rw [List.foldl_cons]
    apply ih
    intro p hp
    rcases mapSet_mem hp with h1 | h1
    · rw [h1]
      rfl
    · exact h _ h1

theorem clearCaches_capture {s : GameState} {c : Cache} (hc : c ∈ s.mapLayers)
    (hnd : (s.mapLayers.map Cache.position).Nodup) :
    mapGet (clearCaches s).cacheMementos c.positionToString = some c.toMemento :=
  captureFold_get _ _ _ hc hnd

theorem clearCaches_invariant {s : GameState} (h : Invariant s) :
    Invariant (clearCaches s) :=
  ⟨h.1, captureFold_consistent _ _ h.2.1, by simp [clearCaches]⟩

/-! Invariant preservation for each event. -/

theorem spawnNearby_nodup {luck : LuckFn} {center : ℚ × ℚ} {s : GameState}
    (hs : storeCanonical s.cellStore)
    (hm : mementosConsistent s.cacheMementos)
    (hl : s.mapLayers = [])
    (hg : s.existingRectangles = [] ∨ s.cacheMementos = []) :
    ((spawnNearbyCaches luck center s).mapLayers.map Cache.position).Nodup := by
  rw [spawnNearby_layers hs hg, hl, List.nil_append, List.map_map]
  have hcg : ∀ o ∈ offsetPairs.filter (fun o =>
      decide (luck (cellKey ((quantizeCell center.1 center.2).i + o.1)
        ((quantizeCell center.1 center.2).j + o.2)) < CACHE_SPAWN_PROBABILITY)),
      (Cache.position ∘ fun o => spawnedValue luck s.cacheMementos
        ((quantizeCell center.1 center.2).i + o.1)
        ((quantizeCell center.1 center.2).j + o.2)) o =
        cellAt (quantizeCell center.1 center.2) o := by
    intro o _
    exact spawnedValue_position hm
  rw [List.map_congr_left hcg]
  exact List.Nodup.sublist ((List.filter_sublist _).map _)
    (evaluatedCells_nodup (quantizeCell center.1 center.2))

theorem spawnNearby_invariant {luck : LuckFn} {center : ℚ × ℚ} {s : GameState}
    (hs : storeCanonical s.cellStore)
    (hm : mementosConsistent s.cacheMementos)
    (hl : s.mapLayers = [])
    (hg : s.existingRectangles = [] ∨ s.cacheMementos = []) :
    Invariant (spawnNearbyCaches luck center s) :=
  ⟨spawnNearby_canonical hs,
    by rw [spawnNearby_cacheMementos]; exact hm,
    spawnNearby_nodup hs hm hl hg⟩

theorem movePlayer_invariant {luck : LuckFn} {pos : ℚ × ℚ} {s : GameState}
    (h : Invariant s) : Invariant (movePlayer luck pos s) := by
  rw [movePlayer]
  have h1 : Invariant (clearCaches { s with playerPos := pos }) :=
    clearCaches_invariant h
  exact spawnNearby_invariant h1.1 h1.2.1 rfl (Or.inl rfl)

theorem resetGame_invariant {luck : LuckFn} {s : GameState}
    (h : Invariant s) : Invariant (resetGame luck s) := by
  rw [resetGame]
  apply spawnNearby_invariant
  · exact h.1
  · intro p hp
    simp at hp
  · rfl
  · exact Or.inr rfl

theorem collect_fst_position (coin : Coin) (cache : Cache) (inv : List Coin)
    (ms : Mementos) : (collect coin cache inv ms).1.position = cache.position := by
  rw [collect]
  split <;> rfl

theorem deposit_fst_position (coin : Coin) (cache : Cache) (inv : List Coin)
    (ms : Mementos) : (deposit coin cache inv ms).1.position = cache.position := by
  rw [deposit]
  split <;> rfl

theorem collect_mems_consistent {coin : Coin} {cache : Cache} {inv : List Coin}
    {ms : Mementos} (h : mementosConsistent ms) :
    mementosConsistent (collect coin cache inv ms).2.2 := by
  by_cases hmem : coin ∈ cache.coins
  · rw [collect_eq_of_mem hmem]
    intro p hp
    rcases mapSet_mem hp with h1 | h1
    · rw [h1]
      rfl
    · exact h _ h1
  · rw [collect_eq_of_not_mem hmem]
    exact h

theorem deposit_mems_consistent {coin : Coin} {cache : Cache} {inv : List Coin}
    {ms : Mementos} (h : mementosConsistent ms) :
    mementosConsistent (deposit coin cache inv ms).2.2 := by
  by_cases hmem : coin ∈ inv
  · rw [deposit_eq_of_mem hmem]
    intro p hp
    rcases mapSet_mem hp with h1 | h1
    · rw [h1]
      rfl
    · exact h _ h1
  · rw [deposit_eq_of_not_mem hmem]
    exact h

theorem replace_layers_positions (s : GameState) (k : String) (r : Cache)
    (hr : ∀ c ∈ s.mapLayers, (c.positionToString == k) = true →
      r.position = c.position) :
    ((s.mapLayers.map (fun c => if c.positionToString == k then r else c)).map
      Cache.position) = s.mapLayers.map Cache.position := by
  rw [List.map_map]
  apply List.map_congr_left
  intro c hc
  by_cases hck : (c.positionToString == k) = true
  · simp only [Function.comp_apply, hck, if_true]
    exact hr c hc hck
  · rw [Bool.not_eq_true] at hck
    simp only [Function.comp_apply, hck, Bool.false_eq_true, if_false]

theorem takeButton_invariant {k : String} {s : GameState}
    (h : Invariant s) : Invariant (takeButton k s) := by
  cases hf : s.mapLayers.find? (fun c => c.positionToString == k) with
  | none => simpa only [takeButton, hf] using h
  | some cache =>
    cases hl : cache.coins.getLast? with
    | none => simpa only [takeButton, hf, hl] using h
    | some coin =>
      simp only [takeButton, hf, hl]
      have hpred := List.find?_some hf
      have hkey : cache.positionToString = k := eq_of_beq hpred
      refine ⟨h.1, collect_mems_consistent h.2.1, ?_⟩
      rw [replace_layers_positions s k _ ?_]
      · exact h.2.2
      · intro c hc hck
        rw [collect_fst_position]
        have hck' : c.positionToString = k := eq_of_beq hck
        exact cellKey_cell_inj (hkey.trans hck'.symm)

theorem giveButton_invariant {k : String} {s : GameState}
    (h : Invariant s) : Invariant (giveButton k s) := by
  cases hf : s.mapLayers.find? (fun c => c.positionToString == k) with
  | none => simpa only [giveButton, hf] using h
  | some cache =>
    cases hl : s.playerCoins.getLast? with
    | none => simpa only [giveButton, hf, hl] using h
    | some coin =>
      simp only [giveButton, hf, hl]
      have hpred := List.find?_some hf
      have hkey : cache.positionToString = k := eq_of_beq hpred
      refine ⟨h.1, deposit_mems_consistent h.2.1, ?_⟩
      rw [replace_layers_positions s k _ ?_]
      · exact h.2.2
      · intro c hc hck
        rw [deposit_fst_position]
        have hck' : c.positionToString = k := eq_of_beq hck
        exact cellKey_cell_inj (hkey.trans hck'.symm)

theorem initialState_invariant (luck : LuckFn) : Invariant (initialState luck) := by
  rw [initialState]
  apply spawnNearby_invariant
  · intro p hp
    simp [pristineState] at hp
  · intro p hp
    simp [pristineState] at hp
  · rfl
  · exact Or.inl rfl

theorem reachable_invariant {luck : LuckFn} {s : GameState}
    (h : Reachable luck s) : Invariant s := by
  induction h with
  | init => exact initialState_invariant luck
  | step s e _ ih =>
    cases e with
    | move pos => exact movePlayer_invariant ih
    | take k => exact takeButton_invariant ih
    | give k => exact giveButton_invariant ih
    | reset => exact resetGame_invariant ih

/-- C7: in every reachable state of the event loop (initial load, any
sequence of movements, transfers, and resets), at most one live Cache
exists per grid cell: the cells of the live cache layers are pairwise
distinct, so directory captures for one cell key are never produced by
two distinct simultaneously-live caches. -/
theorem single_live_cache_per_cell (luck : LuckFn) (s : GameState)
    (h : Reachable luck s) : (s.mapLayers.map Cache.position).Nodup :=
  (reachable_invariant h).2.2

/-- C1: on every movement event, each currently materialized cache has
its memento captured into the directory before the live instances are
discarded, and any cache the subsequent refresh re-spawns at a cell
that was live before holds exactly the token list that existed at
teardown rather than a regenerated fresh set. -/
theorem teardown_respawn_continuity (luck : LuckFn) (s : GameState)
    (hInv : Invariant s) (pos : ℚ × ℚ) :
    (∀ c ∈ s.mapLayers,
      mapGet (movePlayer luck pos s).cacheMementos c.positionToString =
        some c.toMemento) ∧
    (∀ c ∈ s.mapLayers, ∀ c' ∈ (movePlayer luck pos s).mapLayers,
      c'.position = c.position → c'.coins = c.coins) := by
  have hclear : ∀ c ∈ s.mapLayers,
      mapGet (clearCaches { s with playerPos := pos }).cacheMementos
        c.positionToString = some c.toMemento := by
    intro c hc
    exact clearCaches_capture hc hInv.2.2
  have h1 : Invariant (clearCaches { s with playerPos := pos }) :=
    clearCaches_invariant hInv
  constructor
  · intro c hc
    rw [movePlayer, spawnNearby_cacheMementos]
    exact hclear c hc
  · intro c hc c' hc' hpos
    rw [movePlayer] at hc'
    rw [spawnNearby_layers h1.1 (Or.inl rfl)] at hc'
    rw [show (clearCaches { s with playerPos := pos }).mapLayers = [] from rfl,
      List.nil_append] at hc'
    rcases List.mem_map.mp hc' with ⟨o, ho, hval⟩
    have hcpos : c'.position =
        ⟨(quantizeCell pos.1 pos.2).i + o.1, (quantizeCell pos.1 pos.2).j + o.2⟩ := by
      rw [← hval]
      exact spawnedValue_position h1.2.1
    have hc2 : c.position =
        (⟨(quantizeCell pos.1 pos.2).i + o.1, (quantizeCell pos.1 pos.2).j + o.2⟩ : Cell) := by
      rw [← hpos, hcpos]
    have hkeq : cellKey ((quantizeCell pos.1 pos.2).i + o.1)
        ((quantizeCell pos.1 pos.2).j + o.2) = c.positionToString := by
      rw [Cache.positionToString, hc2]
    have hget := hclear c hc
    rw [← hkeq] at hget
    rw [← hval, spawnedValue, hget]
    exact fromMemento_toMemento_coins _ c

/-- C6: after the confirmed reset action the directory holds zero
memento entries and the player inventory is empty, and the refresh the
handler performs at the current coordinate reproduces exactly the spawn
pattern and initial token counts of a pristine session at that
coordinate, because spawn decisions and sizing depend only on the
deterministic generator and not on session history. -/
theorem reset_completeness (luck : LuckFn) (s : GameState)
    (hInv : Invariant s) :
    (resetGame luck s).cacheMementos = [] ∧
    (resetGame luck s).playerCoins = [] ∧
    (resetGame luck s).mapLayers =
      (spawnNearbyCaches luck s.playerPos (pristineState s.playerPos)).mapLayers := by
  refine ⟨?_, ?_, ?_⟩
  · rw [resetGame, spawnNearby_cacheMementos]
  · rw [resetGame, spawnNearby_playerCoins]
  · rw [resetGame]
    have e1 := @spawnNearby_layers luck s.playerPos { s with cacheMementos := [], mapLayers := [], playerCoins := [] } hInv.1 (Or.inr rfl)
    have e2 := @spawnNearby_layers luck s.playerPos (pristineState s.playerPos) (by intro p hp; simp [pristineState] at hp) (Or.inl rfl)
    rw [e1, e2]
    rfl

/-- C4: the refresh loop evaluates exactly the cells whose offsets from
the quantized center cell lie in the closed-open window from -8
inclusive to 8 exclusive on both axes, and every cache layer it
materializes lies at one of those cells; no cell outside the window is
evaluated or spawned. -/
theorem neighborhood_window (luck : LuckFn) (s : GameState)
    (hInv : Invariant s) (hlay : s.mapLayers = [])
    (hg : s.existingRectangles = [] ∨ s.cacheMementos = [])
    (center : ℚ × ℚ) :
    (∀ a b : Int,
      (⟨a, b⟩ : Cell) ∈ evaluatedCells (quantizeCell center.1 center.2) ↔
        ((quantizeCell center.1 center.2).i + -8 ≤ a ∧
            a < (quantizeCell center.1 center.2).i + 8) ∧
          ((quantizeCell center.1 center.2).j + -8 ≤ b ∧
            b < (quantizeCell center.1 center.2).j + 8)) ∧
    (∀ c ∈ (spawnNearbyCaches luck center s).mapLayers,
      c.position ∈ evaluatedCells (quantizeCell center.1 center.2)) := by
  constructor
  · intro a b
    exact mem_evaluatedCells
  · intro c hc
    rw [spawnNearby_layers hInv.1 hg, hlay, List.nil_append] at hc
    rcases List.mem_map.mp hc with ⟨o, ho, hval⟩
    rw [← hval, spawnedValue_position hInv.2.1]
    exact List.mem_map.mpr ⟨o, List.mem_of_mem_filter ho, rfl⟩

/-- C3: for every evaluated cell (a, b), a cache layer spawns at that
cell iff the luck value of the key derived from (a, b) is strictly
below CACHE_SPAWN_PROBABILITY; a cache generated fresh (no memento for
the cell) holds tokens with dense serials 0 through count minus one
where the count is floor(luck of the key (a, b, "initialValue") times
100); both quantities are functions of (a, b) and the generator alone,
so the same cell always yields the same decision and count. -/
theorem deterministic_generation (luck : LuckFn) (s : GameState)
    (hInv : Invariant s) (hrect : s.existingRectangles = [])
    (hlay : s.mapLayers = []) (center : ℚ × ℚ) (a b : Int)
    (hwin : (⟨a, b⟩ : Cell) ∈ evaluatedCells (quantizeCell center.1 center.2)) :
    ((∃ c ∈ (spawnNearbyCaches luck center s).mapLayers, c.position = ⟨a, b⟩) ↔
      luck (cellKey a b) < CACHE_SPAWN_PROBABILITY) ∧
    (mapGet s.cacheMementos (cellKey a b) = none →
      ∀ c ∈ (spawnNearbyCaches luck center s).mapLayers, c.position = ⟨a, b⟩ →
        c.coins =
          (List.range (⌊luck (initialValueKey a b) * mkRat 100 1⌋).toNat).map
            (fun serial => ⟨⟨a, b⟩, serial⟩)) ∧
    (0 ≤ luck (initialValueKey a b) →
      (((⌊luck (initialValueKey a b) * mkRat 100 1⌋).toNat : Int) =
        ⌊luck (initialValueKey a b) * mkRat 100 1⌋)) := by
  have hlayers := @spawnNearby_layers luck center s hInv.1 (Or.inl hrect)
  rw [hlay, List.nil_append] at hlayers
  rcases List.mem_map.mp hwin with ⟨ow, how, hcw⟩
  have hcw' : (quantizeCell center.1 center.2).i + ow.1 = a ∧
      (quantizeCell center.1 center.2).j + ow.2 = b := by
    obtain ⟨wa, wb⟩ := ow
    simp only [cellAt, Cell.mk.injEq] at hcw
    exact hcw
  refine ⟨⟨?_, ?_⟩, ?_, ?_⟩
  · rintro ⟨c, hc, hcpos⟩
    rw [hlayers] at hc
    rcases List.mem_map.mp hc with ⟨o, ho, hval⟩
    have hdec := List.of_mem_filter ho
    have hopos : c.position =
        ⟨(quantizeCell center.1 center.2).i + o.1,
          (quantizeCell center.1 center.2).j + o.2⟩ := by
      rw [← hval]
      exact spawnedValue_position hInv.2.1
    rw [hcpos] at hopos
    have : (quantizeCell center.1 center.2).i + o.1 = a ∧
        (quantizeCell center.1 center.2).j + o.2 = b := by
      have h1 := congrArg Cell.i hopos
      have h2 := congrArg Cell.j hopos
      exact ⟨h1.symm, h2.symm⟩
    rw [this.1, this.2] at hdec
    exact of_decide_eq_true hdec
  · intro hluck
    refine ⟨spawnedValue luck s.cacheMementos
      ((quantizeCell center.1 center.2).i + ow.1)
      ((quantizeCell center.1 center.2).j + ow.2), ?_, ?_⟩
    · rw [hlayers]
      refine List.mem_map.mpr ⟨ow, ?_, rfl⟩
      refine List.mem_filter.mpr ⟨how, ?_⟩
      rw [hcw'.1, hcw'.2]
      exact decide_eq_true hluck
    · rw [spawnedValue_position hInv.2.1, hcw'.1, hcw'.2]
  · intro hnone c hc hcpos
    rw [hlayers] at hc
    rcases List.mem_map.mp hc with ⟨o, ho, hval⟩
    have hopos : c.position =
        ⟨(quantizeCell center.1 center.2).i + o.1,
          (quantizeCell center.1 center.2).j + o.2⟩ := by
      rw [← hval]
      exact spawnedValue_position hInv.2.1
    rw [hcpos] at hopos
    have heq : (quantizeCell center.1 center.2).i + o.1 = a ∧
        (quantizeCell center.1 center.2).j + o.2 = b := by
      have h1 := congrArg Cell.i hopos
      have h2 := congrArg Cell.j hopos
      exact ⟨h1.symm, h2.symm⟩
    rw [← hval, heq.1, heq.2, spawnedValue, hnone]
    rfl
  · intro hluck
    refine Int.toNat_of_nonneg ?_
    refine Int.le_floor.mpr ?_
    rw [Int.cast_zero]
    refine mul_nonneg hluck ?_
    rw [Rat.mkRat_eq_div]
    norm_num

/-! Concrete witnesses. -/

set_option maxRecDepth 10000 in
/-- Concrete teardown scenario: the state holding cache [B, C] at
(2, 2) satisfies the invariant; after a movement the memento of that
cache is in the directory, the cache at (2, 2) is live again, and the
continuity theorem applies to it. -/
theorem teardown_respawn_continuity_witness :
    Invariant exState ∧ exCache ∈ exState.mapLayers ∧
      exCache ∈ (movePlayer exLuck exPos exState).mapLayers ∧
      mapGet (movePlayer exLuck exPos exState).cacheMementos
        exCache.positionToString = some exCache.toMemento ∧
      exCache.coins = exCache.coins := by
  have hInv : Invariant exState := by
    unfold Invariant storeCanonical mementosConsistent
    decide
  have hmem0 : exCache ∈ exState.mapLayers := List.mem_singleton_self exCache
  have hql : quantizeCell exPos.1 exPos.2 = (⟨0, 0⟩ : Cell) := by
    with_unfolding_all rfl
  have h1 : Invariant (clearCaches { exState with playerPos := exPos }) :=
    clearCaches_invariant hInv
  have hmem : exCache ∈ (movePlayer exLuck exPos exState).mapLayers := by
    rw [movePlayer, @spawnNearby_layers exLuck exPos
      (clearCaches { exState with playerPos := exPos }) h1.1 (Or.inl rfl)]
    rw [show (clearCaches { exState with playerPos := exPos }).mapLayers = []
      from rfl, List.nil_append, hql]
    refine List.mem_map.mpr ⟨(2, 2), List.mem_filter.mpr ⟨?_, ?_⟩, ?_⟩
    · decide
    · with_unfolding_all rfl
    · with_unfolding_all rfl
  have h := teardown_respawn_continuity exLuck exState hInv exPos
  exact ⟨hInv, hmem0, hmem, h.1 exCache hmem0, h.2 exCache hmem0 exCache hmem rfl⟩

/-- Concrete reset scenario: a state with one directory entry and one
inventory coin satisfies the invariant, and the reset theorem yields
the emptied directory, emptied inventory and pristine respawn. -/
theorem reset_completeness_witness :
    Invariant exStateReset ∧
      (resetGame exLuck exStateReset).cacheMementos = [] ∧
      (resetGame exLuck exStateReset).playerCoins = [] ∧
      (resetGame exLuck exStateReset).mapLayers =
        (spawnNearbyCaches exLuck exStateReset.playerPos
          (pristineState exStateReset.playerPos)).mapLayers := by
  have hInv : Invariant exStateReset := by
    unfold Invariant storeCanonical mementosConsistent
    decide
  have h := reset_completeness exLuck exStateReset hInv
  exact ⟨hInv, h.1, h.2.1, h.2.2⟩

/-- Concrete reachable state: the initial load is reachable, and the
single-cache theorem applies to it. -/
theorem single_live_cache_per_cell_witness :
    ((initialState exLuck).mapLayers.map Cache.position).Nodup :=
  single_live_cache_per_cell exLuck (initialState exLuck) Reachable.init

/-- Concrete flyweight check from the empty registry: getCell (3, -5)
twice returns the same cell without touching the registry, and (3, -6)
yields a different cell. -/
theorem flyweight_identity_witness :
    storeCanonical [] ∧
      (CellFactory.getCell [] 3 (-5)).1 = ⟨3, -5⟩ ∧
      (CellFactory.getCell (CellFactory.getCell [] 3 (-5)).2 3 (-5)).1 =
        (CellFactory.getCell [] 3 (-5)).1 ∧
      (CellFactory.getCell (CellFactory.getCell [] 3 (-5)).2 3 (-5)).2 =
        (CellFactory.getCell [] 3 (-5)).2 ∧
      (CellFactory.getCell [] 3 (-6)).1 ≠ (CellFactory.getCell [] 3 (-5)).1 := by
  have hs : storeCanonical [] := by
    unfold storeCanonical
    decide
  have h := flyweight_identity [] 3 (-5) hs
  exact ⟨hs, h.1, h.2.1, h.2.2.1, h.2.2.2 3 (-6) (by decide)⟩

/-- Concrete quantization check at a negative coordinate: -1/20000
degrees lies in cell row -1 (floor semantics; truncation would give
0). -/
theorem coordinate_quantization_witness :
    storeCanonical [] ∧
      (CellFactory.getCellFromLatLng [] (mkRat (-1) 20000) (mkRat 0 1)).1 =
        (⟨-1, 0⟩ : Cell) := by
  have hs : storeCanonical [] := by
    unfold storeCanonical
    decide
  refine ⟨hs, ?_⟩
  rw [coordinate_quantization [] _ _ hs]
  with_unfolding_all rfl

/-- Concrete window check at the origin: cell (2, 3) lies inside the
window of center cell (0, 0). -/
theorem neighborhood_window_witness :
    Invariant (pristineState exPos) ∧
      (((⟨2, 3⟩ : Cell) ∈ evaluatedCells (quantizeCell exPos.1 exPos.2)) ↔
        ((quantizeCell exPos.1 exPos.2).i + -8 ≤ 2 ∧
            2 < (quantizeCell exPos.1 exPos.2).i + 8) ∧
          ((quantizeCell exPos.1 exPos.2).j + -8 ≤ 3 ∧
            3 < (quantizeCell exPos.1 exPos.2).j + 8)) := by
  have hInv : Invariant (pristineState exPos) := by
    unfold Invariant storeCanonical mementosConsistent pristineState
    decide
  exact ⟨hInv,
    (neighborhood_window exLuck (pristineState exPos) hInv rfl (Or.inl rfl)
      exPos).1 2 3⟩

set_option maxRecDepth 10000 in
/-- Concrete generation check at the origin: cell (2, 2) is in the
window, its spawn draw 0 is below the threshold, the freshly generated
cache holds 35 coins with dense serials, and the count equals the floor
formula because the sizing draw is nonnegative. -/
theorem deterministic_generation_witness :
    Invariant (pristineState exPos) ∧
      (⟨2, 2⟩ : Cell) ∈ evaluatedCells (quantizeCell exPos.1 exPos.2) ∧
      exLuck (cellKey 2 2) < CACHE_SPAWN_PROBABILITY ∧
      exFreshCache ∈
        (spawnNearbyCaches exLuck exPos (pristineState exPos)).mapLayers ∧
      exFreshCache.coins =
        (List.range (⌊exLuck (initialValueKey 2 2) * mkRat 100 1⌋).toNat).map
          (fun serial => ⟨⟨2, 2⟩, serial⟩) ∧
      (((⌊exLuck (initialValueKey 2 2) * mkRat 100 1⌋).toNat : Int) =
        ⌊exLuck (initialValueKey 2 2) * mkRat 100 1⌋) := by
  have hInv : Invariant (pristineState exPos) := by
    unfold Invariant storeCanonical mementosConsistent pristineState
    decide
  have hql : quantizeCell exPos.1 exPos.2 = (⟨0, 0⟩ : Cell) := by
    with_unfolding_all rfl
  have hwin : (⟨2, 2⟩ : Cell) ∈ evaluatedCells (quantizeCell exPos.1 exPos.2) := by
    rw [hql]
    decide
  have hmem : exFreshCache ∈
      (spawnNearbyCaches exLuck exPos (pristineState exPos)).mapLayers := by
    rw [@spawnNearby_layers exLuck exPos (pristineState exPos) hInv.1 (Or.inl rfl)]
    rw [show (pristineState exPos).mapLayers = [] from rfl, List.nil_append, hql]
    refine List.mem_map.mpr ⟨(2, 2), List.mem_filter.mpr ⟨?_, ?_⟩, ?_⟩
    · decide
    · with_unfolding_all rfl
    · with_unfolding_all rfl
  have h := deterministic_generation exLuck (pristineState exPos) hInv rfl rfl
    exPos 2 2 hwin
  refine ⟨hInv, hwin, of_decide_eq_true (by with_unfolding_all rfl), hmem, ?_, ?_⟩
  · exact h.2.1 rfl exFreshCache hmem rfl
  · exact h.2.2 (of_decide_eq_true (by with_unfolding_all rfl))

/-- Concrete transfer check: collecting coin B from the cache holding
[B, C] succeeds and moves exactly that coin, while collecting the
already-removed coin A is a no-op. -/
theorem transfer_protocol_witness :
    exCoinB ∈ exCache.coins ∧
      collect exCoinB exCache [] [] =
        ({ exCache with coins := exCache.coins.erase exCoinB }, [] ++ [exCoinB],
          mapSet [] exCache.positionToString
            ({ exCache with coins := exCache.coins.erase exCoinB }).toMemento) ∧
      (⟨⟨2, 2⟩, 0⟩ : Coin) ∉ exCache.coins ∧
      collect ⟨⟨2, 2⟩, 0⟩ exCache [] [] = (exCache, [], []) := by
  have h1 : exCoinB ∈ exCache.coins := by decide
  have h2 : (⟨⟨2, 2⟩, 0⟩ : Coin) ∉ exCache.coins := by decide
  exact ⟨h1, (transfer_protocol exCoinB exCache [] []).1 h1, h2,
    (transfer_protocol ⟨⟨2, 2⟩, 0⟩ exCache [] []).2.1 h2⟩
